import Mathlib

/-!
Verification of the decoding / postprocessing core of `musicparser`
(`src/musicparser/models.py`): the score-matrix builder
`compute_adj_logits_root`, the rest-reinsertion routine
`reintroduce_rests`, and the `postprocess` pipeline (projective decoding
with the degenerate-root repair pass, rest reinsertion, and assembly of
the output adjacency matrix / arc list / head sequence).

Modelling conventions:
* real-valued logits are rationals (`ℚ`);
* the sentinel `float("-inf")` is `none` in `Option ℚ`;
* a raised Python exception (shape error of `torch.sparse_coo_tensor`,
  failed `assert`, index error) is `none` in an `Option` result;
* the Eisner decoder lives in `musicparser/postprocessing.py`, outside
  the code under verification, so the pipeline is parametrised by the
  decoder function `d : List (List Entry) → List ℤ`.
-/

namespace MusicParser

/-- Matrix entry after sentinel substitution: `none` models `float("-inf")`,
`some q` a finite score `q`. -/
abbrev Entry := Option ℚ

/-! ### Score Matrix Builder (`compute_adj_logits_root`) -/

/-- Scatter-add of `(arc, score)` pairs into a dense accumulator, as
`torch.sparse_coo_tensor(pot_arcs.T, logits, (n+1, n+1)).to_dense()` does:
each pair adds its score at cell `(arc.1, arc.2)`, so duplicate indices
accumulate. -/
def scatterAdd : List ((ℤ × ℤ) × ℚ) → (ℤ → ℤ → ℚ) → (ℤ → ℤ → ℚ)
  | [], acc => acc
  | q :: rest, acc =>
      scatterAdd rest
        (fun a b => if q.1.1 = a ∧ q.1.2 = b then acc a b + q.2 else acc a b)

/-- Validity of the candidate arc indices for a `(n+1) × (n+1)` matrix:
`torch.sparse_coo_tensor` rejects negative indices and indices beyond the
declared size. -/
def arcsInRange (pot_arcs : List (ℤ × ℤ)) (n : ℕ) : Bool :=
  pot_arcs.all fun p =>
    decide (0 ≤ p.1 ∧ p.1 ≤ (n : ℤ) ∧ 0 ≤ p.2 ∧ p.2 ≤ (n : ℤ))

/-- Embedding of `ArcPredictionLightModel.compute_adj_logits_root`
(`src/musicparser/models.py`).  The source builds a sparse COO tensor from
the candidate arcs and their logits, densifies it (duplicates accumulate,
unfilled cells read 0), then overwrites every cell that is exactly 0 with
`float("-inf")`.  `torch.sparse_coo_tensor` raises when the number of
values differs from the number of index pairs or when an index lies
outside the declared `(n+1, n+1)` size; both failures are `none` here. -/
def compute_adj_logits_root (pot_arcs : List (ℤ × ℤ)) (logits : List ℚ) (num_notes : ℕ) :
    Option (ℤ → ℤ → Entry) :=
  if pot_arcs.length = logits.length ∧ arcsInRange pot_arcs num_notes = true then
    let dense := scatterAdd (pot_arcs.zip logits) (fun _ _ => 0)
    some (fun i j => if dense i j = 0 then none else some (dense i j))
  else none

/-- Total accumulated score of cell `(i, j)`: the sum of the scores of all
candidate pairs whose arc points at `(i, j)`. -/
def cellSum (l : List ((ℤ × ℤ) × ℚ)) (i j : ℤ) : ℚ :=
  ((l.filter fun q => decide (q.1.1 = i ∧ q.1.2 = j)).map Prod.snd).sum

/-! ### Rest Reinsertion (`reintroduce_rests`) -/

/-- Indices at which the mask is true, in ascending order
(`np.where(is_rest)[0]`). -/
def trueIndices : List Bool → List ℕ
  | [] => []
  | b :: m => if b then 0 :: (trueIndices m).map (· + 1) else (trueIndices m).map (· + 1)

/-- Indices at which the mask is false, in ascending order: the full-sequence
positions of the non-rest tokens. -/
def falseIndices : List Bool → List ℕ
  | [] => []
  | b :: m => if b then (falseIndices m).map (· + 1) else 0 :: (falseIndices m).map (· + 1)

/-- Number of false entries of the mask: the size of the compact
(rest-free) index space. -/
def countFalse (mask : List Bool) : ℕ := mask.count false

/-- First pass of `reintroduce_rests`: walk the mask; a rest position keeps
the sentinel −1 the output array was initialised with
(`np.zeros_like(is_rest) - 1`), a non-rest position consumes the next
compact head value.  Running out of compact head values is an index error
(`none`); compact head values beyond the number of non-rest positions are
ignored, as in the source. -/
def insertRests (hs : List ℤ) (mask : List Bool) : Option (List ℤ) :=
  match mask, hs with
  | [], _ => some []
  | true :: m, hs => (insertRests hs m).map (fun l => -1 :: l)
  | false :: _, [] => none
  | false :: m, h :: hs => (insertRests hs m).map (fun l => h :: l)

/-- One comparison of the renumbering pass
(`new_head_seq[new_head_seq >= i] += 1` acting on one cell). -/
def bump (i : ℕ) (v : ℤ) : ℤ := if (i : ℤ) ≤ v then v + 1 else v

/-- Second pass of `reintroduce_rests`: for every rest index, in ascending
order, increment every value of the array that is ≥ that index. -/
def renumber (rs : List ℕ) (l : List ℤ) : List ℤ :=
  rs.foldl (fun acc i => acc.map (bump i)) l

/-- Scalar view of `renumber`: the trajectory of a single cell of the array
under the successive renumbering passes. -/
def shiftVal (rs : List ℕ) (v : ℤ) : ℤ := rs.foldl (fun w i => bump i w) v

/-- Embedding of `reintroduce_rests` (`src/musicparser/models.py`). -/
def reintroduce_rests (head_seq : List ℤ) (is_rest : List Bool) : Option (List ℤ) :=
  (insertRests head_seq is_rest).map (renumber (trueIndices is_rest))

/-! ### `postprocess` -/

/-- Boolean-mask selection along one axis (torch advanced indexing
`t[mask]`): keep exactly the entries at which the mask is true. -/
def maskKeep : List Bool → List α → List α
  | _, [] => []
  | [], _ => []
  | b :: ks, x :: xs => if b then x :: maskKeep ks xs else maskKeep ks xs

/-- `arc_pred_logits_root[:, ~is_rest][~is_rest, :]`: drop the rest rows
and the rest columns of the score matrix. -/
def filterMatrix (is_rest : List Bool) (m : List (List Entry)) : List (List Entry) :=
  maskKeep (is_rest.map not) (m.map fun row => maskKeep (is_rest.map not) row)

/-- Degenerate-root repair of the (rest-filtered) score matrix
(`adj[0, :] = float("-inf"); adj[0][0] = 0; adj[0][-1] = 0`): the root row
becomes all-sentinel except its cell in column 0 — the root column — and
its last cell, which are set to score 0.  All other rows are untouched. -/
def repairRoot : List (List Entry) → List (List Entry)
  | [] => []
  | r0 :: rest =>
      (((List.replicate r0.length (none : Entry)).set 0 (some 0)).set
        (r0.length - 1) (some 0)) :: rest

/-- Eisner decoding with the one-shot repair: decode, and when the decoded
head sequence contains more than one 0 (more than one token attached to the
root), repair the root row and decode exactly once more.  The decoder `d`
itself is defined in `musicparser/postprocessing.py`. -/
def eisnerWithRepair (d : List (List Entry) → List ℤ) (fm : List (List Entry)) : List ℤ :=
  let hs := d fm
  if 1 < hs.count 0 then d (repairRoot fm) else hs

/-- The full decoded head sequence `postprocess` computes before assembling
its outputs: filter out rests, decode (with the repair pass), and reinsert
the rests when the mask has any true entry (`torch.sum(is_rest) > 0`). -/
def decodedFullHeads (d : List (List Entry) → List ℤ) (m : List (List Entry))
    (is_rest : List Bool) : Option (List ℤ) :=
  let hs := eisnerWithRepair d (filterMatrix is_rest m)
  if is_rest.any (fun b => b) then reintroduce_rests hs is_rest else some hs

/-- Write a 1 into one cell of the output adjacency matrix. -/
def setOne (adj : ℕ → ℕ → ℕ) (a b : ℕ) : ℕ → ℕ → ℕ :=
  fun r c => if r = a ∧ c = b then 1 else adj r c

/-- The adjacency cell the output loop of `postprocess` writes for the
token at position `k` with decoded head `h`: position 0 gets the root
self-loop `(0,0)`, a rest (negative head) is attached to the root, and any
other position gets the arc from its head. -/
def cellFor (k : ℕ) (h : ℤ) : ℕ × ℕ :=
  if k = 0 then (0, 0) else if h < 0 then (0, k) else (h.toNat, k)

/-- Output loop of `postprocess`: walk the decoded head sequence with its
position index, write the adjacency cells, and collect the arc list.
Position 0 contributes only the root self-loop, a negative head marks a
rest (root-attached in the matrix, absent from the arc list), and a
positive head must not point at a rest position
(`assert not is_rest.cpu()[head]`, modelled as `none`). -/
def buildAdjArcs (mask : List Bool) :
    ℕ → List ℤ → (ℕ → ℕ → ℕ) → List (ℤ × ℤ) → Option ((ℕ → ℕ → ℕ) × List (ℤ × ℤ))
  | _, [], adj, arcs => some (adj, arcs)
  | i, h :: rest, adj, arcs =>
    if i = 0 then buildAdjArcs mask (i + 1) rest (setOne adj 0 0) arcs
    else if h < 0 then buildAdjArcs mask (i + 1) rest (setOne adj 0 i) arcs
    else if h ≠ 0 then
      if mask.getD h.toNat false then none
      else buildAdjArcs mask (i + 1) rest (setOne adj h.toNat i) (arcs ++ [(h, (i : ℤ))])
    else buildAdjArcs mask (i + 1) rest (setOne adj 0 i) (arcs ++ [(h, (i : ℤ))])

/-- The arcs the output loop generates from position `i` on: one arc
`(h, k)` per position `k` with non-negative head `h`, except position 0. -/
def genArcs : ℕ → List ℤ → List (ℤ × ℤ)
  | _, [] => []
  | i, h :: rest =>
      if 0 < i ∧ 0 ≤ h then (h, (i : ℤ)) :: genArcs (i + 1) rest
      else genArcs (i + 1) rest

/-- Embedding of `ArcPredictionLightModel.postprocess`
(`src/musicparser/models.py`, `alg = "eisner"` branch), returning the
adjacency matrix, the arc list, and the per-token head sequence
(`np.insert(head_seq[1:], 0, 0)`, i.e. the decoded full head sequence with
its first value replaced by 0).  `buildStage` is the output-assembly stage
run on the decoded full head sequence. -/
def buildStage (is_rest : List Bool) (hs : List ℤ) :
    Option ((ℕ → ℕ → ℕ) × List (ℤ × ℤ) × List ℤ) :=
  match buildAdjArcs is_rest 0 hs (fun _ _ => 0) [] with
  | none => none
  | some (adj, arcs) => some (adj, arcs, (0 : ℤ) :: hs.tail)

def postprocessOut (d : List (List Entry) → List ℤ) (m : List (List Entry))
    (num_notes : ℕ) (is_rest : List Bool) :
    Option ((ℕ → ℕ → ℕ) × List (ℤ × ℤ) × List ℤ) :=
  match decodedFullHeads d m is_rest with
  | none => none
  | some hs => buildStage is_rest hs

/-- `postprocess` paired with the caller's score matrix as it stands after
the call.  The source mutates only `adj_pred_log_probs_root`, the tensor
produced by boolean-mask (advanced) indexing of the argument; advanced
indexing in torch copies, so those writes never reach the caller's tensor,
which the second component therefore carries through unchanged. -/
def postprocess (d : List (List Entry) → List ℤ) (m : List (List Entry))
    (num_notes : ℕ) (is_rest : List Bool) :
    Option ((ℕ → ℕ → ℕ) × List (ℤ × ℤ) × List ℤ) × List (List Entry) :=
  (postprocessOut d m num_notes is_rest, m)

/-! ### Helper lemmas -/

theorem scatterAdd_apply (l : List ((ℤ × ℤ) × ℚ)) (acc : ℤ → ℤ → ℚ) (i j : ℤ) :
    scatterAdd l acc i j = acc i j + cellSum l i j := by
  induction l generalizing acc with
  | nil => simp [scatterAdd, cellSum]
  | cons q rest ih =>
    rw [scatterAdd, ih]
    unfold cellSum
    rw [List.filter_cons]
    by_cases h : q.1.1 = i ∧ q.1.2 = j
    · rw [if_pos h, if_pos (decide_eq_true h)]
      simp only [List.map_cons, List.sum_cons]
      ring
    · rw [if_neg h, if_neg (by simp [h])]

theorem cellSum_eq_zero_of_no_candidate (pot_arcs : List (ℤ × ℤ)) (logits : List ℚ)
    (i j : ℤ) (h : ∀ p ∈ pot_arcs, ¬ (p.1 = i ∧ p.2 = j)) :
    cellSum (pot_arcs.zip logits) i j = 0 := by
  have hf : (pot_arcs.zip logits).filter
      (fun q => decide (q.1.1 = i ∧ q.1.2 = j)) = [] := by
    apply List.filter_eq_nil_iff.2
    intro q hq
    have hmem : q.1 ∈ pot_arcs := (List.of_mem_zip hq).1
    simp only [decide_eq_true_eq]
    exact h q.1 hmem
  unfold cellSum
  rw [hf]
  rfl

theorem compute_adj_logits_root_eq (pot_arcs : List (ℤ × ℤ)) (logits : List ℚ) (n : ℕ)
    (hlen : pot_arcs.length = logits.length) (hrange : arcsInRange pot_arcs n = true) :
    compute_adj_logits_root pot_arcs logits n =
      some (fun i j => if cellSum (pot_arcs.zip logits) i j = 0 then none
        else some (cellSum (pot_arcs.zip logits) i j)) := by
  have hM : compute_adj_logits_root pot_arcs logits n
      = some (fun i j =>
          if scatterAdd (pot_arcs.zip logits) (fun _ _ => 0) i j = 0 then none
          else some (scatterAdd (pot_arcs.zip logits) (fun _ _ => 0) i j)) := by
    unfold compute_adj_logits_root
    rw [if_pos ⟨hlen, hrange⟩]
  rw [hM]
  congr 1
  funext i j
  simp [scatterAdd_apply]

/-! ### Claim theorems -/

/-- C1: for every candidate arc list with indices in `[0, N]` and a
parallel score vector, the dense matrix built by
`compute_adj_logits_root` holds the accumulated score at every cell whose
accumulated score is nonzero, and the sentinel −∞ (`none`) at every other
cell: at every cell whose accumulated score is exactly zero — including
candidate cells whose scores sum to zero — and at every non-candidate
cell. -/
theorem score_matrix_builder_cells (pot_arcs : List (ℤ × ℤ)) (logits : List ℚ) (n : ℕ)
    (hlen : pot_arcs.length = logits.length) (hrange : arcsInRange pot_arcs n = true) :
    ∃ M, compute_adj_logits_root pot_arcs logits n = some M ∧
      ∀ i j : ℤ,
        (cellSum (pot_arcs.zip logits) i j ≠ 0 →
            M i j = some (cellSum (pot_arcs.zip logits) i j)) ∧
        (cellSum (pot_arcs.zip logits) i j = 0 → M i j = none) ∧
        ((∀ p ∈ pot_arcs, ¬ (p.1 = i ∧ p.2 = j)) → M i j = none) := by
  refine ⟨_, compute_adj_logits_root_eq pot_arcs logits n hlen hrange, ?_⟩
  intro i j
  refine ⟨fun hne => ?_, fun hz => ?_, fun hnc => ?_⟩
  · simp only [if_neg hne]
  · simp only [if_pos hz]
  · have hz := cellSum_eq_zero_of_no_candidate pot_arcs logits i j hnc
    simp only [if_pos hz]

theorem score_matrix_builder_cells_witness :
    ∃ M, compute_adj_logits_root [((0 : ℤ), (1 : ℤ)), (1, 2), (1, 2)] [5, 2, -2] 2
        = some M ∧
      M 0 1 = some 5 ∧ M 1 2 = none ∧ M 2 2 = none := by
  obtain ⟨M, hM, hp⟩ := score_matrix_builder_cells
    [((0 : ℤ), (1 : ℤ)), (1, 2), (1, 2)] [5, 2, -2] 2 (by decide) (by decide)
  have h01 : cellSum ([((0 : ℤ), (1 : ℤ)), (1, 2), (1, 2)].zip [5, 2, -2]) 0 1 = 5 := by
    norm_num [cellSum, List.zip, List.zipWith, List.filter_cons]
  have h12 : cellSum ([((0 : ℤ), (1 : ℤ)), (1, 2), (1, 2)].zip [5, 2, -2]) 1 2 = 0 := by
    norm_num [cellSum, List.zip, List.zipWith, List.filter_cons]
  refine ⟨M, hM, ?_, ?_, ?_⟩
  · have h1 := (hp 0 1).1 (by rw [h01]; norm_num)
    rw [h1, h01]
  · exact (hp 1 2).2.1 h12
  · exact (hp 2 2).2.2 (by decide)

/-- C5: the Score Matrix Builder fails — the error of
`torch.sparse_coo_tensor` surfaces to the caller, `none` here — whenever a
candidate arc index lies outside `[0, N]` or the candidate list and the
score vector have different lengths. -/
theorem score_matrix_builder_error (pot_arcs : List (ℤ × ℤ)) (logits : List ℚ) (n : ℕ)
    (h : pot_arcs.length ≠ logits.length ∨ arcsInRange pot_arcs n = false) :
    compute_adj_logits_root pot_arcs logits n = none := by
  unfold compute_adj_logits_root
  rw [if_neg]
  rintro ⟨h1, h2⟩
  cases h with
  | inl hl => exact hl h1
  | inr hr => rw [h2] at hr; cases hr

theorem score_matrix_builder_error_witness :
    compute_adj_logits_root [((0 : ℤ), (5 : ℤ))] [1] 2 = none ∧
      compute_adj_logits_root [((0 : ℤ), (1 : ℤ)), (1, 2)] [1] 2 = none :=
  ⟨score_matrix_builder_error _ _ _ (Or.inr (by decide)),
    score_matrix_builder_error _ _ _ (Or.inl (by decide))⟩

/-- C8: when the candidate list contains a duplicate `(head, dependent)`
pair, the cell of that pair still carries the accumulated sum of all its
scores (the scatter accumulates; it is neither first-wins nor last-wins),
and when those scores sum to exactly zero the cell carries the sentinel
−∞. -/
theorem score_matrix_builder_duplicates (pot_arcs : List (ℤ × ℤ)) (logits : List ℚ)
    (n : ℕ) (i j : ℤ) (k1 k2 : Fin pot_arcs.length)
    (hlen : pot_arcs.length = logits.length) (hrange : arcsInRange pot_arcs n = true)
    (hne : k1 ≠ k2) (hk1 : pot_arcs.get k1 = (i, j)) (hk2 : pot_arcs.get k2 = (i, j)) :
    ∃ M, compute_adj_logits_root pot_arcs logits n = some M ∧
      (cellSum (pot_arcs.zip logits) i j ≠ 0 →
          M i j = some (cellSum (pot_arcs.zip logits) i j)) ∧
      (cellSum (pot_arcs.zip logits) i j = 0 →
          M i j = none) := by
  refine ⟨_, compute_adj_logits_root_eq pot_arcs logits n hlen hrange, ?_, ?_⟩
  · intro hne0
    simp only [if_neg hne0]
  · intro hz
    simp only [if_pos hz]

theorem score_matrix_builder_duplicates_witness :
    (∃ M, compute_adj_logits_root [((1 : ℤ), (2 : ℤ)), (1, 2)] [2, 3] 2 = some M ∧
        M 1 2 = some 5) ∧
      ∃ M, compute_adj_logits_root [((1 : ℤ), (2 : ℤ)), (1, 2)] [2, -2] 2 = some M ∧
        M 1 2 = none := by
  constructor
  · obtain ⟨M, hM, hp, _⟩ := score_matrix_builder_duplicates
      [((1 : ℤ), (2 : ℤ)), (1, 2)] [2, 3] 2 1 2 ⟨0, by decide⟩ ⟨1, by decide⟩
      (by decide) (by decide) (by decide) (by decide) (by decide)
    have h2 : cellSum ([((1 : ℤ), (2 : ℤ)), (1, 2)].zip [2, 3]) 1 2 = 5 := by
      norm_num [cellSum, List.zip, List.zipWith, List.filter_cons]
    refine ⟨M, hM, ?_⟩
    have h3 := hp (by rw [h2]; norm_num)
    rw [h3, h2]
  · obtain ⟨M, hM, _, hp⟩ := score_matrix_builder_duplicates
      [((1 : ℤ), (2 : ℤ)), (1, 2)] [2, -2] 2 1 2 ⟨0, by decide⟩ ⟨1, by decide⟩
      (by decide) (by decide) (by decide) (by decide) (by decide)
    refine ⟨M, hM, hp ?_⟩
    norm_num [cellSum, List.zip, List.zipWith, List.filter_cons]

/-! ### Rest-reinsertion lemmas -/

theorem renumber_eq_map (rs : List ℕ) (l : List ℤ) :
    renumber rs l = l.map (shiftVal rs) := by
  induction rs generalizing l with
  | nil => exact (List.map_id l).symm
  | cons i rs ih =>
    show renumber rs (l.map (bump i)) = _
    rw [ih, List.map_map]
    rfl

theorem shiftVal_neg (rs : List ℕ) (v : ℤ) (hv : v < 0) : shiftVal rs v = v := by
  induction rs with
  | nil => rfl
  | cons i rs ih =>
    show shiftVal rs (bump i v) = v
    have hb : bump i v = v := by
      unfold bump
      rw [if_neg]
      omega
    rw [hb, ih]

theorem shiftVal_map_succ (rs : List ℕ) (v : ℤ) :
    shiftVal (rs.map (· + 1)) v = shiftVal rs (v - 1) + 1 := by
  induction rs generalizing v with
  | nil => show v = v - 1 + 1; omega
  | cons i rs ih =>
    show shiftVal (rs.map (· + 1)) (bump (i + 1) v) = shiftVal rs (bump i (v - 1)) + 1
    rw [ih]
    have hb : bump (i + 1) v - 1 = bump i (v - 1) := by
      unfold bump
      split_ifs <;> push_cast at * <;> omega
    rw [hb]

theorem falseIndices_length (mask : List Bool) :
    (falseIndices mask).length = countFalse mask := by
  induction mask with
  | nil => rfl
  | cons b m ih =>
    cases b <;> simp [falseIndices, countFalse, List.count_cons] at * <;> omega

theorem falseIndices_mem (mask : List Bool) (x : ℕ) (hx : x ∈ falseIndices mask) :
    x < mask.length ∧ mask.getD x true = false := by
  induction mask generalizing x with
  | nil => simp [falseIndices] at hx
  | cons b m ih =>
    cases b with
    | true =>
      simp only [falseIndices, if_pos, List.mem_map] at hx
      obtain ⟨y, hy, rfl⟩ := hx
      obtain ⟨h1, h2⟩ := ih y hy
      refine ⟨by simpa using h1, ?_⟩
      simpa using h2
    | false =>
      simp only [falseIndices, if_neg, Bool.false_eq_true, not_false_iff,
        List.mem_cons, List.mem_map] at hx
      rcases hx with rfl | ⟨y, hy, rfl⟩
      · exact ⟨by simp, rfl⟩
      · obtain ⟨h1, h2⟩ := ih y hy
        refine ⟨by simpa using h1, ?_⟩
        simpa using h2

theorem getD_map_succ (l : List ℕ) (h : ℕ) (hl : h < l.length) :
    (l.map (· + 1)).getD h 0 = l.getD h 0 + 1 := by
  rw [List.getD_eq_getElem?_getD, List.getD_eq_getElem?_getD, List.getElem?_map,
    List.getElem?_eq_getElem hl]
  rfl

/-- The renumbering pass sends the compact index `h` to the full-sequence
position of the `h`-th non-rest token. -/
theorem shiftVal_trueIndices (mask : List Bool) (h : ℕ) (hh : h < countFalse mask) :
    shiftVal (trueIndices mask) (h : ℤ) = ((falseIndices mask).getD h 0 : ℤ) := by
  induction mask generalizing h with
  | nil => simp [countFalse] at hh
  | cons b m ih =>
    cases b with
    | true =>
      have hth : trueIndices (true :: m) = 0 :: (trueIndices m).map (· + 1) := rfl
      have hfh : falseIndices (true :: m) = (falseIndices m).map (· + 1) := rfl
      have hcf : countFalse (true :: m) = countFalse m := by
        simp [countFalse, List.count_cons]
      rw [hth, hfh]
      have hb : bump 0 (h : ℤ) = (h : ℤ) + 1 := by
        unfold bump
        rw [if_pos (by positivity)]
      show shiftVal ((trueIndices m).map (· + 1)) (bump 0 (h : ℤ)) = _
      rw [hb, shiftVal_map_succ]
      have : (h : ℤ) + 1 - 1 = (h : ℤ) := by omega
      rw [this, ih h (by omega)]
      rw [getD_map_succ _ h (by rw [falseIndices_length]; omega)]
      push_cast
      ring
    | false =>
      have hth : trueIndices (false :: m) = (trueIndices m).map (· + 1) := rfl
      have hfh : falseIndices (false :: m) = 0 :: (falseIndices m).map (· + 1) := rfl
      have hcf : countFalse (false :: m) = countFalse m + 1 := by
        simp [countFalse, List.count_cons]
      rw [hth, hfh]
      cases h with
      | zero =>
        rw [shiftVal_map_succ]
        have h0 : ((0 : ℕ) : ℤ) - 1 = -1 := by omega
        rw [h0, shiftVal_neg _ _ (by omega)]
        rfl
      | succ k =>
        rw [shiftVal_map_succ]
        have h1 : ((k + 1 : ℕ) : ℤ) - 1 = (k : ℤ) := by push_cast; omega
        rw [h1, ih k (by omega)]
        have h2 : ((0 : ℕ) :: (falseIndices m).map (· + 1)).getD (k + 1) 0
            = ((falseIndices m).map (· + 1)).getD k 0 := by
          rw [List.getD_eq_getElem?_getD, List.getD_eq_getElem?_getD,
            List.getElem?_cons_succ]
        rw [h2, getD_map_succ _ k (by rw [falseIndices_length]; omega)]
        push_cast
        ring

theorem countFalse_take_lt (mask : List Bool) (i : ℕ) (hi : i < mask.length)
    (hf : mask.getD i true = false) :
    countFalse (mask.take i) < countFalse mask := by
  induction mask generalizing i with
  | nil => simp at hi
  | cons b m ih =>
    cases i with
    | zero =>
      have hb : b = false := hf
      subst hb
      simp [countFalse, List.count_cons]
    | succ k =>
      have hk : k < m.length := by simpa using hi
      have hfk : m.getD k true = false := hf
      have := ih k hk hfk
      cases b <;> simp [countFalse, List.count_cons, List.take_cons] at * <;> omega

theorem insertRests_some (mask : List Bool) (hs : List ℤ)
    (hlen : countFalse mask ≤ hs.length) :
    ∃ out, insertRests hs mask = some out ∧ out.length = mask.length := by
  induction mask generalizing hs with
  | nil => exact ⟨[], rfl, rfl⟩
  | cons b m ih =>
    cases b with
    | true =>
      have hm : countFalse m ≤ hs.length := by
        simp [countFalse, List.count_cons] at hlen ⊢
        omega
      obtain ⟨out, hout, hl⟩ := ih hs hm
      refine ⟨-1 :: out, ?_, by simp [hl]⟩
      show (insertRests hs m).map (fun l => -1 :: l) = _
      rw [hout]
      rfl
    | false =>
      match hs with
      | [] =>
        exfalso
        simp [countFalse, List.count_cons] at hlen
      | h :: hs =>
        have hm : countFalse m ≤ hs.length := by
          simp [countFalse, List.count_cons] at hlen ⊢
          omega
        obtain ⟨out, hout, hl⟩ := ih hs hm
        refine ⟨h :: out, ?_, by simp [hl]⟩
        show (insertRests hs m).map (fun l => h :: l) = _
        rw [hout]
        rfl

theorem insertRests_getElem? (mask : List Bool) (hs out : List ℤ)
    (hout : insertRests hs mask = some out) (i : ℕ) (hi : i < mask.length) :
    out[i]? = if mask.getD i true = true then some (-1)
      else hs[countFalse (mask.take i)]? := by
  induction mask generalizing hs out i with
  | nil => simp at hi
  | cons b m ih =>
    cases b with
    | true =>
      have hstep : (insertRests hs m).map (fun l => -1 :: l) = some out := hout
      obtain ⟨o, ho, rfl⟩ := Option.map_eq_some'.1 hstep
      cases i with
      | zero => simp [List.getD_cons_zero]
      | succ k =>
        have hk : k < m.length := by simpa using hi
        rw [List.getElem?_cons_succ, ih hs o ho k hk]
        simp [List.getD_cons_succ, List.take_succ_cons, countFalse, List.count_cons]
    | false =>
      match hs with
      | [] => exact Option.noConfusion hout
      | h :: hs =>
        have hstep : (insertRests hs m).map (fun l => h :: l) = some out := hout
        obtain ⟨o, ho, rfl⟩ := Option.map_eq_some'.1 hstep
        cases i with
        | zero => simp [List.getD_cons_zero, countFalse]
        | succ k =>
          have hk : k < m.length := by simpa using hi
          rw [List.getElem?_cons_succ, ih hs o ho k hk]
          have hcf : countFalse ((false :: m).take (k + 1))
              = countFalse (m.take k) + 1 := by
            simp [countFalse, List.take_succ_cons, List.count_cons]
          by_cases hm : m.getD k true = true
          · rw [if_pos hm, if_pos (by simpa [List.getD_cons_succ] using hm)]
          · rw [if_neg hm, if_neg (by simpa [List.getD_cons_succ] using hm), hcf]
            rw [List.getElem?_cons_succ]

theorem insertRests_all_false (mask : List Bool) (hs : List ℤ)
    (hfalse : ∀ b ∈ mask, b = false) (hlen : hs.length = mask.length) :
    insertRests hs mask = some hs := by
  induction mask generalizing hs with
  | nil =>
    have h0 : hs = [] := List.length_eq_zero.1 (by simpa using hlen)
    subst h0
    rfl
  | cons b m ih =>
    have hb : b = false := hfalse b (by simp)
    subst hb
    cases hs with
    | nil => simp at hlen
    | cons h hs =>
      have hm : insertRests hs m = some hs :=
        ih hs (fun b hb => hfalse b (by simp [hb])) (by simpa using hlen)
      show (insertRests hs m).map (fun l => h :: l) = _
      rw [hm]
      rfl

theorem trueIndices_all_false (mask : List Bool) (hfalse : ∀ b ∈ mask, b = false) :
    trueIndices mask = [] := by
  induction mask with
  | nil => rfl
  | cons b m ih =>
    have hb : b = false := hfalse b (by simp)
    subst hb
    show (trueIndices m).map (· + 1) = []
    rw [ih (fun b hb => hfalse b (by simp [hb]))]
    rfl

/-- C3: rest reinsertion first copies, in order, the compact decoded head
values into the non-rest positions and puts −1 at every rest position,
then applies the renumbering passes (one per rest index, in ascending
order, each incrementing every value ≥ that rest index); on the 5-token
mask `[false, true, false, false, true]` with compact heads `[0, 1, 2]`
the pre-renumbering array is `[0, −1, 1, 2, −1]` and the final result is
`[0, −1, 2, 3, −1]`. -/
theorem rest_reinsertion_two_pass (hs : List ℤ) (mask : List Bool)
    (hlen : hs.length = countFalse mask) :
    (∃ pre, insertRests hs mask = some pre ∧ pre.length = mask.length ∧
        (∀ i, i < mask.length →
          pre[i]? = if mask.getD i true = true then some (-1)
            else hs[countFalse (mask.take i)]?) ∧
        reintroduce_rests hs mask = some (renumber (trueIndices mask) pre)) ∧
      insertRests [0, 1, 2] [false, true, false, false, true]
        = some [0, -1, 1, 2, -1] ∧
      reintroduce_rests [0, 1, 2] [false, true, false, false, true]
        = some [0, -1, 2, 3, -1] := by
  refine ⟨?_, by decide, by decide⟩
  obtain ⟨pre, hpre, hlen2⟩ := insertRests_some mask hs (le_of_eq hlen.symm)
  refine ⟨pre, hpre, hlen2, fun i hi => insertRests_getElem? mask hs pre hpre i hi, ?_⟩
  unfold reintroduce_rests
  rw [hpre]
  rfl

theorem rest_reinsertion_two_pass_witness :
    ∃ pre, insertRests [0, 1, 2] [false, true, false, false, true] = some pre ∧
      pre.length = 5 ∧
      reintroduce_rests [0, 1, 2] [false, true, false, false, true]
        = some (renumber (trueIndices [false, true, false, false, true]) pre) := by
  obtain ⟨⟨pre, h1, h2, h3, h4⟩, h5, h6⟩ :=
    rest_reinsertion_two_pass [0, 1, 2] [false, true, false, false, true] (by decide)
  exact ⟨pre, h1, by rw [h2]; rfl, h4⟩

/-- C4: for every compact head array (parallel to the non-rest positions,
with values in the valid compact range) and every rest mask, rest
reinsertion returns an array of the full sequence length that carries −1
at exactly the rest positions, and every non-rest position holds a head
that is a valid full-sequence index pointing at a non-rest position
(hence at a non-rest token or, at index 0 when it is non-rest, the
root). -/
theorem rest_reinsertion_invariants (hs : List ℤ) (mask : List Bool)
    (hlen : hs.length = countFalse mask)
    (hvals : ∀ v ∈ hs, 0 ≤ v ∧ v < (countFalse mask : ℤ)) :
    ∃ out, reintroduce_rests hs mask = some out ∧
      out.length = mask.length ∧
      (∀ i, i < mask.length → (mask.getD i true = true ↔ out.getD i 0 = -1)) ∧
      (∀ i, i < mask.length → mask.getD i true = false →
        0 ≤ out.getD i 0 ∧ out.getD i 0 < (mask.length : ℤ) ∧
        mask.getD (out.getD i 0).toNat true = false) := by
  obtain ⟨pre, hpre, hprelen⟩ := insertRests_some mask hs (le_of_eq hlen.symm)
  have hre : reintroduce_rests hs mask = some (renumber (trueIndices mask) pre) := by
    unfold reintroduce_rests
    rw [hpre]
    rfl
  have houtlen : (renumber (trueIndices mask) pre).length = mask.length := by
    rw [renumber_eq_map, List.length_map, hprelen]
  have hval : ∀ i, i < mask.length →
      (renumber (trueIndices mask) pre).getD i 0
        = shiftVal (trueIndices mask) (pre.getD i 0) := by
    intro i hi
    have hilt : i < pre.length := by rw [hprelen]; exact hi
    rw [renumber_eq_map, List.getD_eq_getElem?_getD, List.getElem?_map,
      List.getElem?_eq_getElem hilt, List.getD_eq_getElem?_getD,
      List.getElem?_eq_getElem hilt]
    rfl
  have hrest : ∀ i, i < mask.length → mask.getD i true = true →
      (renumber (trueIndices mask) pre).getD i 0 = -1 := by
    intro i hi hm
    rw [hval i hi]
    have hp := insertRests_getElem? mask hs pre hpre i hi
    rw [if_pos hm] at hp
    have hpd : pre.getD i 0 = -1 := by
      rw [List.getD_eq_getElem?_getD, hp]
      rfl
    rw [hpd]
    exact shiftVal_neg _ _ (by omega)
  have hnonrest : ∀ i, i < mask.length → mask.getD i true = false →
      ∃ p : ℕ, p < mask.length ∧ mask.getD p true = false ∧
        (renumber (trueIndices mask) pre).getD i 0 = (p : ℤ) := by
    intro i hi hm
    have hp := insertRests_getElem? mask hs pre hpre i hi
    rw [if_neg (by rw [hm]; exact Bool.false_ne_true)] at hp
    have hklt : countFalse (mask.take i) < countFalse mask :=
      countFalse_take_lt mask i hi hm
    have hkhs : countFalse (mask.take i) < hs.length := by omega
    rw [List.getElem?_eq_getElem hkhs] at hp
    have hvmem : hs[countFalse (mask.take i)] ∈ hs := List.getElem_mem hkhs
    obtain ⟨hv0, hvlt⟩ := hvals _ hvmem
    have hvt : (hs[countFalse (mask.take i)]).toNat < countFalse mask := by omega
    have hpd : pre.getD i 0 = hs[countFalse (mask.take i)] := by
      rw [List.getD_eq_getElem?_getD, hp]
      rfl
    have hcast : ((hs[countFalse (mask.take i)]).toNat : ℤ)
        = hs[countFalse (mask.take i)] := Int.toNat_of_nonneg hv0
    have hplen : (hs[countFalse (mask.take i)]).toNat < (falseIndices mask).length := by
      rw [falseIndices_length]
      exact hvt
    have hpmem : (falseIndices mask).getD (hs[countFalse (mask.take i)]).toNat 0
        ∈ falseIndices mask := by
      rw [List.getD_eq_getElem?_getD, List.getElem?_eq_getElem hplen]
      exact List.getElem_mem hplen
    obtain ⟨hp1, hp2⟩ := falseIndices_mem mask _ hpmem
    refine ⟨(falseIndices mask).getD (hs[countFalse (mask.take i)]).toNat 0,
      hp1, hp2, ?_⟩
    rw [hval i hi, hpd, ← hcast]
    exact shiftVal_trueIndices mask _ hvt
  refine ⟨renumber (trueIndices mask) pre, hre, houtlen, ?_, ?_⟩
  · intro i hi
    constructor
    · exact hrest i hi
    · intro ho
      by_contra hmne
      have hm : mask.getD i true = false := by
        cases hmm : mask.getD i true
        · rfl
        · exact absurd hmm hmne
      obtain ⟨p, _, _, hpe⟩ := hnonrest i hi hm
      rw [hpe] at ho
      omega
  · intro i hi hm
    obtain ⟨p, hp1, hp2, hpe⟩ := hnonrest i hi hm
    rw [hpe]
    refine ⟨by positivity, by exact_mod_cast hp1, ?_⟩
    rw [Int.toNat_natCast]
    exact hp2

theorem rest_reinsertion_invariants_witness :
    ∃ out, reintroduce_rests [0, 1, 2] [false, true, true, false, false] = some out ∧
      out.length = 5 ∧ (out.getD 1 0 = -1 ↔ [false, true, true, false, false].getD 1 true = true) := by
  obtain ⟨out, h1, h2, h3, _⟩ := rest_reinsertion_invariants [0, 1, 2]
    [false, true, true, false, false] (by decide) (by decide)
  exact ⟨out, h1, by rw [h2]; rfl, (h3 1 (by norm_num)).symm⟩

/-- C6: with an all-false rest mask of matching length, rest reinsertion
returns the head array unchanged; and in the `postprocess` pipeline the
reinsertion step is skipped altogether (the decoded head sequence is
passed through) when the mask contains no true entry. -/
theorem rest_reinsertion_identity (d : List (List Entry) → List ℤ)
    (m : List (List Entry)) (hs : List ℤ) (mask : List Bool)
    (hfalse : ∀ b ∈ mask, b = false) :
    (hs.length = mask.length → reintroduce_rests hs mask = some hs) ∧
      decodedFullHeads d m mask
        = some (eisnerWithRepair d (filterMatrix mask m)) := by
  constructor
  · intro hlen
    unfold reintroduce_rests
    rw [insertRests_all_false mask hs hfalse hlen, trueIndices_all_false mask hfalse]
    rfl
  · have hany : mask.any (fun b => b) = false := by
      rw [List.any_eq_false]
      intro b hb
      rw [hfalse b hb]
      simp
    simp only [decodedFullHeads, hany, Bool.false_eq_true, if_false]

theorem rest_reinsertion_identity_witness :
    reintroduce_rests [7, 0, 2] [false, false, false] = some [7, 0, 2] ∧
      decodedFullHeads (fun _ => [0, 1]) [[some 1, some 2], [none, some 3]]
          [false, false]
        = some (eisnerWithRepair (fun _ => [0, 1])
            (filterMatrix [false, false] [[some 1, some 2], [none, some 3]])) :=
  ⟨(rest_reinsertion_identity (fun _ => [0, 1]) [] [7, 0, 2] [false, false, false]
      (by decide)).1 (by decide),
    (rest_reinsertion_identity (fun _ => [0, 1]) [[some 1, some 2], [none, some 3]]
      [] [false, false] (by decide)).2⟩

/-- C7: `postprocess` leaves the caller's score matrix unchanged: the
repair pass writes only into the local tensor produced by boolean-mask
indexing (which copies), so after the call — whether or not the repair was
triggered, and whatever the rest mask — the caller's matrix holds exactly
the values it held before. -/
theorem postprocess_preserves_matrix (d : List (List Entry) → List ℤ)
    (m : List (List Entry)) (num_notes : ℕ) (is_rest : List Bool) :
    (postprocess d m num_notes is_rest).2 = m := rfl

/-- C2 (amended): whenever decoding yields more than one token with head 0,
the repair pass overwrites the root row of the (rest-filtered) score matrix
with the sentinel −∞ everywhere except its cell in column 0 — the root's
own column — and its cell in the last column, which are set to 0, and the
decoder is re-run exactly once on the repaired matrix (the repair is
applied at most once, with no further check). -/
theorem degenerate_root_repair (d : List (List Entry) → List ℤ)
    (fm : List (List Entry)) (r0 : List Entry) (rest : List (List Entry))
    (hfm : fm = r0 :: rest) (hlen : 2 ≤ r0.length)
    (htrig : 1 < (d fm).count 0) :
    eisnerWithRepair d fm = d (repairRoot fm) ∧
      ∃ row0, repairRoot fm = row0 :: rest ∧
        row0.length = r0.length ∧
        row0[0]? = some (some 0) ∧
        row0[r0.length - 1]? = some (some 0) ∧
        (∀ j, 0 < j → j < r0.length - 1 → row0[j]? = some none) := by
  constructor
  · simp only [eisnerWithRepair]
    rw [if_pos htrig]
  · subst hfm
    refine ⟨((List.replicate r0.length (none : Entry)).set 0 (some 0)).set
      (r0.length - 1) (some 0), rfl, ?_, ?_, ?_, ?_⟩
    · simp
    · rw [List.getElem?_set_ne (by omega)]
      rw [List.getElem?_set_self (by simp; omega)]
    · rw [List.getElem?_set_self (by simp; omega)]
    · intro j hj0 hjl
      rw [List.getElem?_set_ne (by omega), List.getElem?_set_ne (by omega)]
      rw [List.getElem?_replicate]
      rw [if_pos (by omega)]

theorem degenerate_root_repair_witness :
    eisnerWithRepair (fun _ => [0, 0, 0]) [[some 1, some 2, some 3], [some 4, none, some 5],
        [none, none, some 6]]
      = (fun _ => [0, 0, 0]) (repairRoot [[some 1, some 2, some 3], [some 4, none, some 5],
        [none, none, some 6]]) ∧
    ∃ row0, repairRoot [[some 1, some 2, some 3], [some 4, none, some 5],
        [none, none, some 6]]
      = row0 :: [[some 4, none, some 5], [none, none, some 6]] ∧
      row0[0]? = some (some 0) ∧ row0[2]? = some (some 0) ∧ row0[1]? = some none := by
  obtain ⟨h1, row0, h2, h3, h4, h5, h6⟩ := degenerate_root_repair (fun _ => [0, 0, 0])
    [[some 1, some 2, some 3], [some 4, none, some 5], [none, none, some 6]]
    [some 1, some 2, some 3] [[some 4, none, some 5], [none, none, some 6]]
    rfl (by norm_num) (by norm_num)
  exact ⟨h1, row0, h2, h4, by simpa using h5, h6 1 (by norm_num) (by norm_num)⟩

/-- C2 as stated is false: on a 4×4 all-candidate matrix with a decoder
reporting four root attachments, the repair triggers, yet the repaired
root row is `[0, −∞, −∞, 0]` — the cell of the first token (column 1)
holds the sentinel rather than 0, while the root-column cell (0,0), which
the claim says becomes the sentinel, holds 0. -/
theorem degenerate_root_repair_counterexample :
    (1 < ((fun _ : List (List Entry) => [(0 : ℤ), 0, 0, 0])
        (filterMatrix [false, false, false, false]
          [[some 1, some 1, some 1, some 1], [some 1, some 1, some 1, some 1],
           [some 1, some 1, some 1, some 1], [some 1, some 1, some 1, some 1]])).count 0) ∧
      eisnerWithRepair (fun _ => [(0 : ℤ), 0, 0, 0])
          (filterMatrix [false, false, false, false]
            [[some 1, some 1, some 1, some 1], [some 1, some 1, some 1, some 1],
             [some 1, some 1, some 1, some 1], [some 1, some 1, some 1, some 1]])
        = (fun _ => [(0 : ℤ), 0, 0, 0])
            (repairRoot (filterMatrix [false, false, false, false]
              [[some 1, some 1, some 1, some 1], [some 1, some 1, some 1, some 1],
               [some 1, some 1, some 1, some 1], [some 1, some 1, some 1, some 1]])) ∧
      ¬ (((repairRoot (filterMatrix [false, false, false, false]
              [[some 1, some 1, some 1, some 1], [some 1, some 1, some 1, some 1],
               [some 1, some 1, some 1, some 1],
               [some 1, some 1, some 1, some 1]])).getD 0 []).getD 1 (some 37)
          = some 0) ∧
      ((repairRoot (filterMatrix [false, false, false, false]
            [[some 1, some 1, some 1, some 1], [some 1, some 1, some 1, some 1],
             [some 1, some 1, some 1, some 1],
             [some 1, some 1, some 1, some 1]])).getD 0 []).getD 1 (some 37) = none ∧
      ((repairRoot (filterMatrix [false, false, false, false]
            [[some 1, some 1, some 1, some 1], [some 1, some 1, some 1, some 1],
             [some 1, some 1, some 1, some 1],
             [some 1, some 1, some 1, some 1]])).getD 0 []).getD 0 (some 37)
        = some 0 := by
  decide

/-! ### Output-loop lemmas -/

theorem exists_lt_succ_iff {n : ℕ} {P : ℕ → Prop} :
    (∃ j, j < n + 1 ∧ P j) ↔ P 0 ∨ ∃ j, j < n ∧ P (j + 1) := by
  constructor
  · rintro ⟨j, hj, hP⟩
    cases j with
    | zero => exact Or.inl hP
    | succ k => exact Or.inr ⟨k, by omega, hP⟩
  · rintro (h0 | ⟨j, hj, hP⟩)
    · exact ⟨0, by omega, h0⟩
    · exact ⟨j + 1, by omega, hP⟩

theorem setOne_eq_one_iff (adj : ℕ → ℕ → ℕ) (a b r c : ℕ) :
    setOne adj a b r c = 1 ↔ (r = a ∧ c = b) ∨ adj r c = 1 := by
  unfold setOne
  by_cases h : r = a ∧ c = b
  · rw [if_pos h]
    simp [h]
  · rw [if_neg h]
    constructor
    · exact Or.inr
    · rintro (hc | hc)
      · exact absurd hc h
      · exact hc

theorem buildAdjArcs_arcs (mask : List Bool) (hsRem : List ℤ) :
    ∀ (i : ℕ) (adj : ℕ → ℕ → ℕ) (arcs : List (ℤ × ℤ))
      (adj2 : ℕ → ℕ → ℕ) (arcs2 : List (ℤ × ℤ)),
      buildAdjArcs mask i hsRem adj arcs = some (adj2, arcs2) →
      arcs2 = arcs ++ genArcs i hsRem := by
  induction hsRem with
  | nil =>
    intro i adj arcs adj2 arcs2 hb
    simp only [buildAdjArcs, Option.some.injEq, Prod.mk.injEq] at hb
    obtain ⟨-, rfl⟩ := hb
    simp [genArcs]
  | cons h rest ih =>
    intro i adj arcs adj2 arcs2 hb
    simp only [buildAdjArcs] at hb
    have hgen : genArcs i (h :: rest)
        = if 0 < i ∧ 0 ≤ h then (h, (i : ℤ)) :: genArcs (i + 1) rest
          else genArcs (i + 1) rest := rfl
    split_ifs at hb with hi hneg h0 hm
    · rw [ih (i + 1) _ _ _ _ hb, hgen, if_neg (by omega)]
    · rw [ih (i + 1) _ _ _ _ hb, hgen, if_neg (by rintro ⟨-, hc⟩; omega)]
    · rw [ih (i + 1) _ _ _ _ hb, hgen, if_pos ⟨by omega, by omega⟩,
        List.append_assoc]
      rfl
    · rw [ih (i + 1) _ _ _ _ hb, hgen, if_pos ⟨by omega, by omega⟩,
        List.append_assoc]
      rfl

theorem genArcs_mem (l : List ℤ) : ∀ (i : ℕ) (p : ℤ × ℤ),
    p ∈ genArcs i l ↔ ∃ j, j < l.length ∧ 0 < i + j ∧ 0 ≤ l.getD j 0 ∧
      p = (l.getD j 0, ((i + j : ℕ) : ℤ)) := by
  induction l with
  | nil =>
    intro i p
    simp [genArcs]
  | cons h rest ih =>
    intro i p
    have hrec := ih (i + 1) p
    simp only [show ∀ j : ℕ, i + 1 + j = i + (j + 1) from fun j => by omega] at hrec
    have hgen : genArcs i (h :: rest)
        = if 0 < i ∧ 0 ≤ h then (h, (i : ℤ)) :: genArcs (i + 1) rest
          else genArcs (i + 1) rest := rfl
    rw [hgen, show (h :: rest).length = rest.length + 1 from rfl, exists_lt_succ_iff]
    simp only [List.getD_cons_zero, List.getD_cons_succ, Nat.add_zero]
    by_cases hc : 0 < i ∧ 0 ≤ h
    · rw [if_pos hc, List.mem_cons, hrec]
      constructor
      · rintro (rfl | hx)
        · exact Or.inl ⟨hc.1, hc.2, rfl⟩
        · exact Or.inr hx
      · rintro (⟨-, -, rfl⟩ | hx)
        · exact Or.inl rfl
        · exact Or.inr hx
    · rw [if_neg hc, hrec]
      constructor
      · exact Or.inr
      · rintro (⟨h1, h2, rfl⟩ | hx)
        · exact absurd ⟨h1, h2⟩ hc
        · exact hx

theorem or_rotate_iff {A B C D : Prop} (h : A ↔ D) : ((A ∨ B) ∨ C) ↔ B ∨ D ∨ C := by
  constructor
  · rintro ((ha | hb) | hc)
    · exact Or.inr (Or.inl (h.1 ha))
    · exact Or.inl hb
    · exact Or.inr (Or.inr hc)
  · rintro (hb | hd | hc)
    · exact Or.inl (Or.inr hb)
    · exact Or.inl (Or.inl (h.2 hd))
    · exact Or.inr hc

theorem buildAdjArcs_adj (mask : List Bool) (hsRem : List ℤ) :
    ∀ (i : ℕ) (adj : ℕ → ℕ → ℕ) (arcs : List (ℤ × ℤ))
      (adj2 : ℕ → ℕ → ℕ) (arcs2 : List (ℤ × ℤ)),
      buildAdjArcs mask i hsRem adj arcs = some (adj2, arcs2) →
      ∀ r c, adj2 r c = 1 ↔
        (adj r c = 1 ∨
          ∃ j, j < hsRem.length ∧ cellFor (i + j) (hsRem.getD j 0) = (r, c)) := by
  induction hsRem with
  | nil =>
    intro i adj arcs adj2 arcs2 hb r c
    simp only [buildAdjArcs, Option.some.injEq, Prod.mk.injEq] at hb
    obtain ⟨rfl, -⟩ := hb
    simp
  | cons h rest ih =>
    intro i adj arcs adj2 arcs2 hb r c
    simp only [buildAdjArcs] at hb
    split_ifs at hb with hi hneg h0 hm
    · have hcell : cellFor i h = ((0 : ℕ), (0 : ℕ)) := by
        unfold cellFor
        rw [if_pos hi]
      have hstep := ih (i + 1) _ _ _ _ hb r c
      rw [setOne_eq_one_iff] at hstep
      simp only [show ∀ j : ℕ, i + 1 + j = i + (j + 1) from fun j => by omega] at hstep
      rw [hstep, show (h :: rest).length = rest.length + 1 from rfl,
        exists_lt_succ_iff]
      simp only [List.getD_cons_zero, List.getD_cons_succ, Nat.add_zero]
      have hiff : (r = 0 ∧ c = 0) ↔ cellFor i h = (r, c) := by
        rw [hcell]
        simp [Prod.ext_iff, eq_comm]
      exact or_rotate_iff hiff
    · have hcell : cellFor i h = ((0 : ℕ), i) := by
        unfold cellFor
        rw [if_neg hi, if_pos hneg]
      have hstep := ih (i + 1) _ _ _ _ hb r c
      rw [setOne_eq_one_iff] at hstep
      simp only [show ∀ j : ℕ, i + 1 + j = i + (j + 1) from fun j => by omega] at hstep
      rw [hstep, show (h :: rest).length = rest.length + 1 from rfl,
        exists_lt_succ_iff]
      simp only [List.getD_cons_zero, List.getD_cons_succ, Nat.add_zero]
      have hiff : (r = 0 ∧ c = i) ↔ cellFor i h = (r, c) := by
        rw [hcell]
        simp [Prod.ext_iff, eq_comm]
      exact or_rotate_iff hiff
    · have hcell : cellFor i h = (h.toNat, i) := by
        unfold cellFor
        rw [if_neg hi, if_neg hneg]
      have hstep := ih (i + 1) _ _ _ _ hb r c
      rw [setOne_eq_one_iff] at hstep
      simp only [show ∀ j : ℕ, i + 1 + j = i + (j + 1) from fun j => by omega] at hstep
      rw [hstep, show (h :: rest).length = rest.length + 1 from rfl,
        exists_lt_succ_iff]
      simp only [List.getD_cons_zero, List.getD_cons_succ, Nat.add_zero]
      have hiff : (r = h.toNat ∧ c = i) ↔ cellFor i h = (r, c) := by
        rw [hcell]
        simp [Prod.ext_iff, eq_comm]
      exact or_rotate_iff hiff
    · have hzero : h = 0 := by omega
      have hcell : cellFor i h = ((0 : ℕ), i) := by
        unfold cellFor
        rw [if_neg hi, if_neg hneg, hzero]
        rfl
      have hstep := ih (i + 1) _ _ _ _ hb r c
      rw [setOne_eq_one_iff] at hstep
      simp only [show ∀ j : ℕ, i + 1 + j = i + (j + 1) from fun j => by omega] at hstep
      rw [hstep, show (h :: rest).length = rest.length + 1 from rfl,
        exists_lt_succ_iff]
      simp only [List.getD_cons_zero, List.getD_cons_succ, Nat.add_zero]
      have hiff : (r = 0 ∧ c = i) ↔ cellFor i h = (r, c) := by
        rw [hcell]
        simp [Prod.ext_iff, eq_comm]
      exact or_rotate_iff hiff

theorem postprocessOut_eq (d : List (List Entry) → List ℤ) (m : List (List Entry))
    (n : ℕ) (mask : List Bool) (hs : List ℤ)
    (hdec : decodedFullHeads d m mask = some hs) :
    postprocessOut d m n mask = buildStage mask hs := by
  unfold postprocessOut
  rw [hdec]

theorem buildStage_eq (mask : List Bool) (hs : List ℤ)
    (pr : (ℕ → ℕ → ℕ) × List (ℤ × ℤ))
    (hb : buildAdjArcs mask 0 hs (fun _ _ => 0) [] = some pr) :
    buildStage mask hs = some (pr.1, pr.2, (0 : ℤ) :: hs.tail) := by
  unfold buildStage
  rw [hb]

theorem buildStage_none (mask : List Bool) (hs : List ℤ)
    (hb : buildAdjArcs mask 0 hs (fun _ _ => 0) [] = none) :
    buildStage mask hs = none := by
  unfold buildStage
  rw [hb]

/-- C9: in the `(N+1) × (N+1)` adjacency matrix returned by `postprocess`,
cell `(0,0)` is always 1 and every rest position `i` (decoded head −1) has
cell `(0, i)` set to 1 — rests appear root-attached in the matrix — while
neither the `(0,0)` self-loop nor any rest position appears in the
returned arc list; every position `i ≥ 1` whose head `h` is positive
(non-rest, non-root) yields the entry `(h, i) = 1` plus the arc `(h, i)`;
and the matrix entries and arc list are exactly the ones determined by the
decoded head sequence. -/
theorem postprocess_adjacency (d : List (List Entry) → List ℤ) (m : List (List Entry))
    (n : ℕ) (mask : List Bool) (hs : List ℤ) (adj : ℕ → ℕ → ℕ)
    (arcs : List (ℤ × ℤ)) (hseq : List ℤ)
    (hdec : decodedFullHeads d m mask = some hs)
    (hout : postprocessOut d m n mask = some (adj, arcs, hseq)) :
    (hs ≠ [] → adj 0 0 = 1) ∧
      (∀ i : ℕ, 1 ≤ i → i < hs.length → hs.getD i 0 < 0 →
        adj 0 i = 1 ∧ ∀ a : ℤ, (a, (i : ℤ)) ∉ arcs) ∧
      ((0 : ℤ), (0 : ℤ)) ∉ arcs ∧
      (∀ i : ℕ, 1 ≤ i → i < hs.length → 0 < hs.getD i 0 →
        adj (hs.getD i 0).toNat i = 1 ∧ (hs.getD i 0, (i : ℤ)) ∈ arcs) ∧
      (∀ r c : ℕ, adj r c = 1 ↔
        ∃ j, j < hs.length ∧ cellFor j (hs.getD j 0) = (r, c)) ∧
      (∀ p : ℤ × ℤ, p ∈ arcs ↔
        ∃ j, j < hs.length ∧ 0 < j ∧ 0 ≤ hs.getD j 0 ∧
          p = (hs.getD j 0, (j : ℤ))) := by
  rw [postprocessOut_eq d m n mask hs hdec] at hout
  cases hb : buildAdjArcs mask 0 hs (fun _ _ => 0) [] with
  | none =>
    rw [buildStage_none mask hs hb] at hout
    exact Option.noConfusion hout
  | some pr =>
    rw [buildStage_eq mask hs pr hb] at hout
    simp only [Option.some.injEq, Prod.mk.injEq] at hout
    obtain ⟨rfl, rfl, -⟩ := hout
    have hb2 : buildAdjArcs mask 0 hs (fun _ _ => 0) [] = some (pr.1, pr.2) := by
      rw [hb]
    have hadj := buildAdjArcs_adj mask hs 0 (fun _ _ => 0) [] pr.1 pr.2 hb2
    have harcs := buildAdjArcs_arcs mask hs 0 (fun _ _ => 0) [] pr.1 pr.2 hb2
    have hadj2 : ∀ r c, pr.1 r c = 1 ↔
        ∃ j, j < hs.length ∧ cellFor j (hs.getD j 0) = (r, c) := by
      intro r c
      have := hadj r c
      simpa [Nat.zero_add] using this
    have harcs2 : ∀ p : ℤ × ℤ, p ∈ pr.2 ↔
        ∃ j, j < hs.length ∧ 0 < j ∧ 0 ≤ hs.getD j 0 ∧
          p = (hs.getD j 0, (j : ℤ)) := by
      intro p
      rw [harcs, List.nil_append]
      simpa [Nat.zero_add] using genArcs_mem hs 0 p
    refine ⟨?_, ?_, ?_, ?_, hadj2, harcs2⟩
    · intro hne
      rw [hadj2]
      refine ⟨0, List.length_pos.2 hne, ?_⟩
      unfold cellFor
      rw [if_pos rfl]
    · intro i h1i hilen hneg
      constructor
      · rw [hadj2]
        refine ⟨i, hilen, ?_⟩
        unfold cellFor
        rw [if_neg (by omega), if_pos hneg]
      · intro a hmem
        rw [harcs2] at hmem
        obtain ⟨j, hj, hj0, hge, heq⟩ := hmem
        have h2 : ((i : ℤ)) = (j : ℤ) := (Prod.ext_iff.1 heq).2
        have h3 : i = j := by exact_mod_cast h2
        rw [← h3] at hge
        omega
    · intro hmem
      rw [harcs2] at hmem
      obtain ⟨j, hj, hj0, hge, heq⟩ := hmem
      have h2 : ((0 : ℤ)) = (j : ℤ) := (Prod.ext_iff.1 heq).2
      have h3 : j = 0 := by exact_mod_cast h2.symm
      omega
    · intro i h1i hilen hpos
      constructor
      · rw [hadj2]
        refine ⟨i, hilen, ?_⟩
        unfold cellFor
        rw [if_neg (by omega), if_neg (by omega)]
      · rw [harcs2]
        exact ⟨i, hilen, by omega, by omega, rfl⟩

theorem postprocess_adjacency_witness :
    ∃ adj arcs hseq,
      postprocessOut (fun _ => [5, -1, 0, 2]) [] 3 [false, false, false, false]
          = some (adj, arcs, hseq) ∧
      adj 0 0 = 1 ∧ adj 0 1 = 1 ∧ adj 2 3 = 1 ∧
      ((2 : ℤ), (3 : ℤ)) ∈ arcs ∧ (((0 : ℤ), (0 : ℤ)) ∉ arcs) ∧
      ∀ a : ℤ, (a, (1 : ℤ)) ∉ arcs := by
  have hdec : decodedFullHeads (fun _ => [5, -1, 0, 2]) []
      [false, false, false, false] = some [5, -1, 0, 2] := by decide
  obtain ⟨out, hout⟩ : ∃ out, postprocessOut (fun _ => [5, -1, 0, 2]) [] 3
      [false, false, false, false] = some out := ⟨_, rfl⟩
  obtain ⟨adj, arcs, hseq⟩ := out
  obtain ⟨h1, h2, h3, h4, -, -⟩ := postprocess_adjacency (fun _ => [5, -1, 0, 2])
    [] 3 [false, false, false, false] [5, -1, 0, 2] adj arcs hseq hdec hout
  refine ⟨adj, arcs, hseq, hout, h1 (by decide),
    (h2 1 (by decide) (by decide) (by decide)).1, ?_, ?_, h3, ?_⟩
  · have h5 := (h4 3 (by decide) (by decide) (by decide)).1
    simpa using h5
  · have h5 := (h4 3 (by decide) (by decide) (by decide)).2
    simpa using h5
  · intro a
    exact (h2 1 (by decide) (by decide) (by decide)).2 a

/-- C10: the per-token head sequence returned by `postprocess` is the
decoded full head sequence with its first element dropped and a 0
prepended (`np.insert(head_seq[1:], 0, 0)`): its value at index 0 is
always 0, whatever the decoded value at index 0 was, and its length equals
the decoded sequence's length. -/
theorem postprocess_head_seq (d : List (List Entry) → List ℤ) (m : List (List Entry))
    (n : ℕ) (mask : List Bool) (adj : ℕ → ℕ → ℕ) (arcs : List (ℤ × ℤ))
    (hseq : List ℤ)
    (hout : postprocessOut d m n mask = some (adj, arcs, hseq)) :
    ∃ hs, decodedFullHeads d m mask = some hs ∧
      hseq = (0 : ℤ) :: hs.tail ∧ hseq.getD 0 37 = 0 ∧
      (hs ≠ [] → hseq.length = hs.length) := by
  cases hdec : decodedFullHeads d m mask with
  | none =>
    have hnone : postprocessOut d m n mask = none := by
      unfold postprocessOut
      rw [hdec]
    rw [hnone] at hout
    exact Option.noConfusion hout
  | some hs =>
    rw [postprocessOut_eq d m n mask hs hdec] at hout
    cases hb : buildAdjArcs mask 0 hs (fun _ _ => 0) [] with
    | none =>
      rw [buildStage_none mask hs hb] at hout
      exact Option.noConfusion hout
    | some pr =>
      rw [buildStage_eq mask hs pr hb] at hout
      simp only [Option.some.injEq, Prod.mk.injEq] at hout
      obtain ⟨-, -, rfl⟩ := hout
      refine ⟨hs, rfl, rfl, by simp, ?_⟩
      intro hne
      cases hs with
      | nil => exact absurd rfl hne
      | cons a t => simp

theorem postprocess_head_seq_witness :
    ∃ adj arcs hseq,
      postprocessOut (fun _ => [7, 0, 1]) [] 2 [false, false, false]
          = some (adj, arcs, hseq) ∧ hseq = [0, 0, 1] ∧ hseq.getD 0 37 = 0 ∧
      hseq.length = 3 := by
  obtain ⟨out, hout⟩ : ∃ out, postprocessOut (fun _ => [7, 0, 1]) [] 2
      [false, false, false] = some out := ⟨_, rfl⟩
  obtain ⟨adj, arcs, hseq⟩ := out
  obtain ⟨hs, hdec, hEq, hgd, hlen⟩ := postprocess_head_seq (fun _ => [7, 0, 1])
    [] 2 [false, false, false] adj arcs hseq hout
  have hhs : hs = [7, 0, 1] := by
    have h2 : decodedFullHeads (fun _ => [7, 0, 1]) [] [false, false, false]
        = some [7, 0, 1] := by decide
    rw [hdec] at h2
    exact Option.some.inj h2
  subst hhs
  refine ⟨adj, arcs, hseq, hout, by rw [hEq]; rfl, hgd, ?_⟩
  rw [hlen (by decide)]
  rfl

end MusicParser
